import Mathlib

/-!
Verification of the district-keyword pipeline of the GwangjuARDonMap
repository.  The Python sources are shallowly embedded: `collections.Counter`
values become association lists from token to count, the Dirichlet-smoothed
log-odds score is expressed over the real numbers with `Real.log` standing
for `math.log`, and the regex-based text normalizer is embedded as explicit
character-list scanners that model the five regular expressions of
`architect_buildings.py`.
-/

namespace GwangjuMap

/-- Model of a Python `collections.Counter` over tokens: an association
list from token to occurrence count (keys unique, insertion ordered). -/
abbrev Counter : Type := List (String × Nat)

/-- Model of `counter.get(w, 0)`: the count stored for `w`, or `0`. -/
def Counter.get (c : Counter) (w : String) : Nat :=
  ((c.find? (fun p => p.1 == w)).map (fun p => p.2)).getD 0

/-- Model of `sum(counter.values())`. -/
def Counter.total (c : Counter) : Nat :=
  (c.map (fun p => p.2)).sum

/-- Model of `list(counter.keys())`. -/
def Counter.keys (c : Counter) : List String :=
  c.map (fun p => p.1)

/-- One element of the list built by `log_odds_dirichlet`: the tuple
`(w, score, c1, c0)` from `architect_buildings.py` line 176. -/
structure REntry where
  kw : String
  score : ℝ
  c1 : Nat
  c0 : Nat

/-- Model of `vocab = set(one.keys()) | set(rest.keys())` as the
duplicate-free list of tokens, first occurrence kept. -/
def vocabList (one rest : Counter) : List String :=
  (one.keys ++ rest.keys).eraseDups

/-- Model of `V = len(vocab) if len(vocab) else 1`. -/
def bigV (one rest : Counter) : Nat :=
  if (vocabList one rest).length = 0 then 1 else (vocabList one rest).length

/-- The literal `1e-12` of `architect_buildings.py` line 175. -/
noncomputable def eps : ℝ := 1 / 10 ^ 12

/-- The smoothed log-odds score computed at lines 173-175 of
`architect_buildings.py` for counts `c1`, `c0`, totals `n1`, `n0` and
vocabulary size `V`:
`log(p1 / (1 - p1 + 1e-12)) - log(p0 / (1 - p0 + 1e-12))` with
`p1 = (c1 + alpha) / (n1 + alpha * V)` and
`p0 = (c0 + alpha) / (n0 + alpha * V)`. -/
noncomputable def smoothScore (alpha : ℝ) (n1 n0 V c1 c0 : Nat) : ℝ :=
  Real.log (((c1 + alpha) / (n1 + alpha * V)) /
      (1 - (c1 + alpha) / (n1 + alpha * V) + eps)) -
  Real.log (((c0 + alpha) / (n0 + alpha * V)) /
      (1 - (c0 + alpha) / (n0 + alpha * V) + eps))

/-- The list `out` built by the `for w in vocab` loop of
`log_odds_dirichlet`: every vocabulary token whose count in `one` reaches
`min_count` contributes the tuple `(w, score, c1, c0)`. -/
noncomputable def scoredEntries (one rest : Counter) (alpha : ℝ)
    (minCount : Nat) : List REntry :=
  (vocabList one rest).filterMap (fun w =>
    let c1 := one.get w
    let c0 := rest.get w
    if c1 < minCount then none
    else some ⟨w, smoothScore alpha one.total rest.total (bigV one rest) c1 c0,
               c1, c0⟩)

/-- The comparator of `out.sort(key=lambda x: x[1], reverse=True)`:
entry `a` may precede entry `b` when `b`'s score is not larger. -/
noncomputable def scoreGE (a b : REntry) : Bool :=
  decide (b.score ≤ a.score)

/-- Model of `log_odds_dirichlet(one, rest, alpha, topn, min_count)` from
`architect_buildings.py` lines 160-178: score the surviving vocabulary,
sort by score descending (stably), and keep the first `topn` entries. -/
noncomputable def log_odds_dirichlet (one rest : Counter) (alpha : ℝ)
    (topn minCount : Nat) : List REntry :=
  ((scoredEntries one rest alpha minCount).mergeSort scoreGE).take topn

/-- Modelled from the spec: `V = max(|vocab|, 1)` as the spec phrases the
vocabulary-size guard (the code writes `len(vocab) if len(vocab) else 1`). -/
def specV (one rest : Counter) : Nat :=
  max (vocabList one rest).length 1

/-- Modelled from the spec: the score formula exactly as spelled out in
section 4.4, `ln(p1 / (1 - p1 + eps)) - ln(p0 / (1 - p0 + eps))` with
`p1 = (c1 + alpha) / (n1 + alpha * V)`,
`p0 = (c0 + alpha) / (n0 + alpha * V)` and `eps = 1e-12`. -/
noncomputable def specScore (alpha : ℝ) (n1 n0 V c1 c0 : Nat) : ℝ :=
  Real.log (((c1 + alpha) / (n1 + alpha * V)) /
      (1 - (c1 + alpha) / (n1 + alpha * V) + 1 / 10 ^ 12)) -
  Real.log (((c0 + alpha) / (n0 + alpha * V)) /
      (1 - (c0 + alpha) / (n0 + alpha * V) + 1 / 10 ^ 12))

/-- The fixed district list `DISTRICTS` of the scripts. -/
def DISTRICTS : List String := ["동구", "서구", "남구", "북구", "광산구"]

/-- The comparator of `Counter.most_common`: sort by count descending. -/
def cntGE (a b : String × Nat) : Bool := decide (b.2 ≤ a.2)

/-- Model of `counter.most_common(n)`: entries sorted by count descending
(stably), truncated to the first `n`. -/
def most_common (c : Counter) (n : Nat) : List (String × Nat) :=
  (c.mergeSort cntGE).take n

/-- One `{"kw": ..., "cnt": ..., "score": ...}` object of the keyword
payload built by `build_district_keywords`. -/
structure PayloadEntry where
  kw : String
  cnt : Nat
  score : ℝ

/-- Model of `counter[w] += n` on a Python `Counter`: bump an existing
key in place, or append a new key at the end. -/
def Counter.bump (c : Counter) (w : String) (n : Nat) : Counter :=
  if c.any (fun p => p.1 == w) then
    c.map (fun p => if p.1 == w then (p.1, p.2 + n) else p)
  else c ++ [(w, n)]

/-- Model of `rest += other` on Python `Counter`s: merge `d` into `c`,
adding counts key by key. -/
def Counter.add (c d : Counter) : Counter :=
  d.foldl (fun acc p => acc.bump p.1 p.2) c

/-- The `rest` counter built for district `dist` at lines 206-209 of
`architect_buildings.py`: the sum of every other district's counter. -/
def restCounter (counters : String → Counter) (dist : String) : Counter :=
  DISTRICTS.foldl
    (fun acc other => if other = dist then acc else acc.add (counters other)) []

/-- Model of `build_district_keywords` (lines 180-226 of
`architect_buildings.py`) restricted to its ranking stage: districts of
`DISTRICTS` get the one-vs-rest log-odds payload with `alpha = 0.01`,
while the `"기타"` bucket gets its own tokens by raw frequency with score
fixed at `0.0`. -/
noncomputable def build_district_keywords (counters : String → Counter)
    (etc : Counter) (topn minCount : Nat) : String → List PayloadEntry :=
  fun dist =>
    if dist = "기타" then
      (most_common etc topn).map (fun p => ⟨p.1, p.2, 0⟩)
    else if dist ∈ DISTRICTS then
      (log_odds_dirichlet (counters dist) (restCounter counters dist)
        (1 / 100) topn minCount).map (fun e => ⟨e.kw, e.c1, e.score⟩)
    else []

/-- Model of `one.get(w, 0)` as an explicit state-passing read: Python
`dict.get` returns the count and leaves the counter untouched. -/
def Counter.getSt (c : Counter) (w : String) : Nat × Counter := (c.get w, c)

/-- Model of `one.keys()` as a state-passing read. -/
def Counter.keysSt (c : Counter) : List String × Counter := (c.keys, c)

/-- Model of `sum(one.values())` as a state-passing read. -/
def Counter.totalSt (c : Counter) : Nat × Counter := (c.total, c)

/-- One iteration of the `for w in vocab` loop of `log_odds_dirichlet`,
threading both counters through the dictionary reads it performs. -/
noncomputable def rankStep (alpha : ℝ) (minCount n1 n0 V : Nat)
    (acc : List REntry × Counter × Counter) (w : String) :
    List REntry × Counter × Counter :=
  let c1p := acc.2.1.getSt w
  let c0p := acc.2.2.getSt w
  if c1p.1 < minCount then (acc.1, c1p.2, c0p.2)
  else (acc.1 ++ [⟨w, smoothScore alpha n1 n0 V c1p.1 c0p.1, c1p.1, c0p.1⟩],
    c1p.2, c0p.2)

/-- State-passing rendition of `log_odds_dirichlet`: the same computation,
but every read of the two input counters threads the counter state, and
the final counter states are returned next to the ranked list. -/
noncomputable def log_odds_dirichlet_st (one rest : Counter) (alpha : ℝ)
    (topn minCount : Nat) : List REntry × Counter × Counter :=
  let k1p := one.keysSt
  let k0p := rest.keysSt
  let vocab := (k1p.1 ++ k0p.1).eraseDups
  let n1p := k1p.2.totalSt
  let n0p := k0p.2.totalSt
  let V := if vocab.length = 0 then 1 else vocab.length
  let r := vocab.foldl (rankStep alpha minCount n1p.1 n0p.1 V) ([], n1p.2, n0p.2)
  ((r.1.mergeSort scoreGE).take topn, r.2)

/-- The alphabet on which this embedding of the normalizer is claimed
faithful to Python's Unicode regex classes: printable ASCII, the six
ASCII whitespace characters, Hangul syllables, and the middle dot.  On
exactly these characters Python's `\d` is the ASCII digits, `\s` is the
six ASCII whitespace characters, and `\w` is ASCII alphanumerics,
underscore and Hangul syllables — outside it (full-width digits, other
Unicode whitespace or word characters) Python matches more than the
model below. -/
def modeledChar (c : Char) : Bool :=
  (0x20 ≤ c.toNat && c.toNat ≤ 0x7E) || c == '\t' || c == '\n' ||
  c == '\r' || c == '\x0B' || c == '\x0C' ||
  (0xAC00 ≤ c.toNat && c.toNat ≤ 0xD7A3) || c == '·'

/-- Model of the regex class `\s`, exact on the `modeledChar` alphabet:
the six ASCII whitespace characters. -/
def isSpaceCh (c : Char) : Bool :=
  c == ' ' || c == '\t' || c == '\n' || c == '\r' || c == '\x0B' || c == '\x0C'

/-- Model of the regex class `\w`, exact on the `modeledChar` alphabet:
ASCII alphanumerics, underscore, and Hangul syllables. -/
def isWordCh (c : Char) : Bool :=
  c.isAlphanum || c == '_' || (0xAC00 ≤ c.toNat && c.toNat ≤ 0xD7A3)

/-- Model of `text.replace("5·18", "오월민주화")`: replace every
occurrence of the literal, scanning left to right. -/
def replace518 : List Char → List Char
  | '5' :: '·' :: '1' :: '8' :: rest =>
      '오' :: '월' :: '민' :: '주' :: '화' :: replace518 rest
  | c :: rest => c :: replace518 rest
  | [] => []

/-- Generic model of `re.sub(pattern, " ", text)`: scan left to right;
`tm prev l` returns the matched text and the remaining suffix when the
pattern matches at the head of `l`, where `prev` is the character just
before `l` (for word boundaries).  Each match is replaced by one space.
`fuel` bounds the recursion and is initialised to the text length, which
suffices because every match consumes at least one character. -/
def reSubF (tm : Option Char → List Char → Option (List Char × List Char)) :
    Nat → Option Char → List Char → List Char
  | 0, _, l => l
  | _ + 1, _, [] => []
  | fuel + 1, prev, c :: rest =>
    match tm prev (c :: rest) with
    | some (m, r) => ' ' :: reSubF tm fuel m.getLast? r
    | none => c :: reSubF tm fuel (some c) rest

/-- Run a scanning substitution over a whole text. -/
def reSub (tm : Option Char → List Char → Option (List Char × List Char))
    (l : List Char) : List Char :=
  reSubF tm l.length none l

/-- Matcher for `RE_ORD = 제\s*\d+\s*(?:호|회)`: the marker `제`, optional
spaces, a nonempty digit run, optional spaces, then `호` or `회`. -/
def ordTM (_ : Option Char) (l : List Char) :
    Option (List Char × List Char) :=
  match l with
  | [] => none
  | c :: rest =>
    if c = '제' then
      let s1 := rest.takeWhile isSpaceCh
      let r1 := rest.dropWhile isSpaceCh
      let d := r1.takeWhile Char.isDigit
      let r2 := r1.dropWhile Char.isDigit
      if d = [] then none
      else
        let s2 := r2.takeWhile isSpaceCh
        let r3 := r2.dropWhile isSpaceCh
        match r3 with
        | k :: r4 =>
          if k = '호' ∨ k = '회' then some (c :: (s1 ++ d ++ s2 ++ [k]), r4)
          else none
        | [] => none
    else none

/-- Matcher for `RE_YEAR = \d{3,4}\s*년`: a maximal digit run of length
three or four (a longer run can never match at this position), optional
spaces, then `년`. -/
def yearTM (_ : Option Char) (l : List Char) :
    Option (List Char × List Char) :=
  let d := l.takeWhile Char.isDigit
  let r := l.dropWhile Char.isDigit
  if d.length = 3 ∨ d.length = 4 then
    let s := r.takeWhile isSpaceCh
    match r.dropWhile isSpaceCh with
    | '년' :: r2 => some (d ++ s ++ ['년'], r2)
    | _ => none
  else none

/-- Matcher for `RE_NUM = \b\d+(?:[.]\d+)?\b`: at a word boundary, a
maximal digit run, optionally a dot and a second digit run; the optional
group is dropped again when no word boundary follows it, and the whole
match fails when a word character directly follows the integer part. -/
def numTM (prev : Option Char) (l : List Char) :
    Option (List Char × List Char) :=
  match l with
  | [] => none
  | c :: _ =>
    if (match prev with | none => true | some p => !isWordCh p) && c.isDigit
    then
      let d := l.takeWhile Char.isDigit
      let r1 := l.dropWhile Char.isDigit
      match r1 with
      | '.' :: r2 =>
        if (match r2 with | e :: _ => e.isDigit | [] => false) then
          let f := r2.takeWhile Char.isDigit
          let r3 := r2.dropWhile Char.isDigit
          match r3 with
          | w :: _ => if isWordCh w then some (d, r1)
                      else some (d ++ '.' :: f, r3)
          | [] => some (d ++ '.' :: f, r3)
        else some (d, r1)
      | w :: _ => if isWordCh w then none else some (d, r1)
      | [] => some (d, r1)
    else none

/-- Model of `RE_PUNCT.sub(" ", t)` with `RE_PUNCT = [^\w\s·]`: every
character that is not a word character, whitespace, or the middle dot is
replaced by a space. -/
def punctSub (l : List Char) : List Char :=
  l.map (fun c => if isWordCh c || isSpaceCh c || c == '·' then c else ' ')

/-- Model of `RE_MULTI.sub(" ", t)` with `RE_MULTI = \s+`: each maximal
whitespace run becomes a single space.  The flag records whether the
previous character was whitespace. -/
def collapseAux : Bool → List Char → List Char
  | _, [] => []
  | prevWs, c :: rest =>
    if isSpaceCh c then
      if prevWs then collapseAux true rest
      else ' ' :: collapseAux true rest
    else c :: collapseAux false rest

/-- Model of the right half of `t.strip()`. -/
def stripEnd (l : List Char) : List Char :=
  (l.reverse.dropWhile isSpaceCh).reverse

/-- Model of `t.strip()`: drop whitespace from both ends. -/
def stripWs (l : List Char) : List Char :=
  stripEnd (l.dropWhile isSpaceCh)

/-- Adjacent-character predicate on normalized text: at most one of two
neighbouring characters is whitespace. -/
def noTwoSpaces (a b : Char) : Prop :=
  ¬(isSpaceCh a = true ∧ isSpaceCh b = true)

/-- Model of `clean_text_for_kw` from `architect_buildings.py` lines
129-138: the pinned `5·18` replacement, then the ordinal, year, numeric
and punctuation substitutions, then whitespace collapsing and stripping.
The character classes (`Char.isDigit` for `\d`, `isWordCh` for `\w`,
`isSpaceCh` for `\s`) coincide with Python's Unicode classes exactly on
strings over the `modeledChar` alphabet. -/
def clean_text_for_kw (s : String) : String :=
  String.mk (stripWs (collapseAux false (punctSub
    (reSub numTM (reSub yearTM (reSub ordTM (replace518 s.data)))))))

/-- One morpheme of a Kiwi analysis: surface form, part-of-speech tag,
and the two auxiliary fields of the 4-tuples iterated at line 154 of
`architect_buildings.py`. -/
structure Morph where
  form : String
  pos : String
  beg : Nat
  len : Nat

/-- The stopword set of `architect_buildings.py` lines 116-127. -/
def STOPWORDS : List String :=
  ["광주", "광주광역시", "대한민국", "국가", "등록", "등록문화재",
   "국가등록문화재", "유형문화재", "문화재자료", "기념물", "명승", "사적",
   "지정", "승격", "조선시대", "일제강점기", "근대", "현대", "개관", "준공",
   "완공", "증축", "중건", "복원", "보수", "이전", "신축", "리모델링",
   "건물", "건축", "건축물", "시설", "공간", "장소", "지역", "현재", "당시",
   "규모", "구성", "가치", "특징", "활용", "사용", "부문",
   "있다", "이다", "한다", "있는", "대한", "위해", "관련",
   "동구", "서구", "남구", "북구", "광산구"]

/-- The stopword set of `main2.py` lines 39-46. -/
def STOPWORDS2 : List String :=
  ["광주", "광주광역시", "대한민국", "국가", "등록", "등록문화재",
   "국가등록문화재", "유형문화재", "문화재자료", "기념물", "명승", "사적",
   "지정", "승격", "조선시대", "일제강점기", "근대", "현대", "개관", "준공",
   "완공", "증축", "중건", "복원", "보수", "이전", "신축", "리모델링",
   "건물", "건축", "건축물", "시설", "공간", "장소", "지역", "현재", "당시",
   "규모", "구성", "가치", "특징", "활용", "사용", "부문"]

/-- The first analysis returned by the external morphological analyzer,
`kiwi.analyze(text)[0][0]`, or `[]` when the analyzer returns nothing.
The second component of each analysis pair models its score. -/
def firstAnalysis (analyze : String → List (List Morph × ℚ))
    (text : String) : List Morph :=
  match analyze text with
  | [] => []
  | (toks, _) :: _ => toks

/-- Model of `nouns_only` from `architect_buildings.py` lines 142-158:
an empty text or an empty analysis gives `[]`; otherwise keep, from the
first analysis, the surface forms tagged `NNG` or `NNP` of length at
least 2 that are not stopwords. -/
def nouns_only (analyze : String → List (List Morph × ℚ))
    (text : String) : List String :=
  if text = "" then []
  else
    match analyze text with
    | [] => []
    | (toks, _) :: _ =>
      toks.filterMap (fun m =>
        if m.pos = "NNG" ∨ m.pos = "NNP" then
          if 2 ≤ m.form.length ∧ ¬ m.form ∈ STOPWORDS then some m.form
          else none
        else none)

/-- Model of `nouns_only` from `main2.py` lines 88-100: the same filter,
but `kiwi.analyze(text)[0][0]` is indexed without an emptiness guard, so
an empty analysis raises `IndexError`, modeled as `none`. -/
def nouns_only_main2 (analyze : String → List (List Morph × ℚ))
    (text : String) : Option (List String) :=
  if text = "" then some []
  else
    match analyze text with
    | [] => none
    | (toks, _) :: _ =>
      some (toks.filterMap (fun m =>
        if m.pos = "NNG" ∨ m.pos = "NNP" then
          if 2 ≤ m.form.length ∧ ¬ m.form ∈ STOPWORDS2 then some m.form
          else none
        else none))

/-- The district name, if any, that matches at the head of `l`; the
alternatives of the regex `(동구|서구|남구|북구|광산구)` are tried in
order. -/
def districtAt (l : List Char) : Option String :=
  DISTRICTS.find? (fun d => l.take d.data.length == d.data)

/-- Model of `re.search(r"(동구|서구|남구|북구|광산구)", s)`: scan the
positions left to right and return the first (leftmost) match. -/
def search_district : List Char → Option String
  | [] => none
  | c :: rest =>
    match districtAt (c :: rest) with
    | some d => some d
    | none => search_district rest

/-- Model of `extract_district` from `architect_buildings.py` lines 46-51
and `main.py` lines 77-85: `str(address)` is searched for the five
district names, and `"기타"` is returned when none occurs.  An absent or
non-string address is rendered by `str` as a district-free string such as
`"None"` or `"nan"`, modeled by the `none` case. -/
def extract_district (address : Option String) : String :=
  match search_district (address.getD "None").data with
  | some d => d
  | none => "기타"

/-- Does `pat` occur contiguously in the second list (Python `pat in s`)? -/
def containsSub (pat : List Char) : List Char → Bool
  | [] => pat.isEmpty
  | c :: rest => (c :: rest).take pat.length == pat || containsSub pat rest

/-- Model of `extract_district` from `main2.py` lines 63-72: `None` for a
non-string address; otherwise the first district in list order that
occurs anywhere in the address, and `None` when none occurs. -/
def extract_district_main2 (address : Option String) : Option String :=
  match address with
  | none => none
  | some s => DISTRICTS.find? (fun d => containsSub d.data s.data)

theorem specV_eq (one rest : Counter) : specV one rest = bigV one rest := by
  unfold specV bigV
  rcases Nat.eq_zero_or_pos (vocabList one rest).length with h | h
  · simp [h]
  · rw [if_neg (Nat.pos_iff_ne_zero.mp h), Nat.max_eq_left h]

theorem specScore_eq (alpha : ℝ) (n1 n0 V c1 c0 : Nat) :
    specScore alpha n1 n0 V c1 c0 = smoothScore alpha n1 n0 V c1 c0 := by
  unfold specScore smoothScore eps
  rfl

/-- Membership in the scored list, unfolded. -/
theorem mem_scoredEntries {one rest : Counter} {alpha : ℝ} {minCount : Nat}
    {e : REntry} :
    e ∈ scoredEntries one rest alpha minCount ↔
      e.kw ∈ vocabList one rest ∧ minCount ≤ one.get e.kw ∧
      e.c1 = one.get e.kw ∧ e.c0 = rest.get e.kw ∧
      e.score = smoothScore alpha one.total rest.total (bigV one rest)
        (one.get e.kw) (rest.get e.kw) := by
  unfold scoredEntries
  rw [List.mem_filterMap]
  constructor
  · rintro ⟨w, hw, hsome⟩
    by_cases h : one.get w < minCount
    · simp [h] at hsome
    · simp only [h, if_false, Option.some.injEq] at hsome
      subst hsome
      exact ⟨hw, Nat.le_of_not_lt h, rfl, rfl, rfl⟩
  · rintro ⟨hw, hmin, hc1, hc0, hs⟩
    refine ⟨e.kw, hw, ?_⟩
    rw [if_neg (Nat.not_lt.mpr hmin)]
    cases e
    simp_all

/-- Every entry of the final ranked output already occurs in the scored
list (sorting permutes, truncation selects). -/
theorem mem_of_mem_log_odds {one rest : Counter} {alpha : ℝ}
    {topn minCount : Nat} {e : REntry}
    (h : e ∈ log_odds_dirichlet one rest alpha topn minCount) :
    e ∈ scoredEntries one rest alpha minCount := by
  unfold log_odds_dirichlet at h
  exact List.mem_mergeSort.mp (List.mem_of_mem_take h)

theorem scoreGE_trans (a b c : REntry) :
    scoreGE a b → scoreGE b c → scoreGE a c := by
  unfold scoreGE
  intro h1 h2
  exact decide_eq_true (le_trans (of_decide_eq_true h2) (of_decide_eq_true h1))

theorem scoreGE_total (a b : REntry) : scoreGE a b || scoreGE b a := by
  unfold scoreGE
  rcases le_total a.score b.score with h | h
  · simp [h]
  · simp [h]

/-- C4: for every input, the output of `log_odds_dirichlet` is sorted by
score in descending order, has length at most `topn`, and contains only
tokens whose count in the `one` counter reaches `min_count`; the `rest`
count never gates an entry. -/
theorem ranker_output_sorted_bounded_gated (one rest : Counter) (alpha : ℝ)
    (topn minCount : Nat) :
    (log_odds_dirichlet one rest alpha topn minCount).Pairwise
        (fun a b => b.score ≤ a.score) ∧
    (log_odds_dirichlet one rest alpha topn minCount).length ≤ topn ∧
    (log_odds_dirichlet one rest alpha topn minCount).Forall
        (fun e => minCount ≤ one.get e.kw) := by
  refine ⟨?_, ?_, ?_⟩
  · have hs := List.sorted_mergeSort scoreGE_trans scoreGE_total
      (scoredEntries one rest alpha minCount)
    have hp : (List.mergeSort (scoredEntries one rest alpha minCount)
        scoreGE).Pairwise (fun a b => b.score ≤ a.score) :=
      hs.imp (fun h => of_decide_eq_true h)
    exact hp.sublist (List.take_sublist _ _)
  · unfold log_odds_dirichlet
    rw [List.length_take]
    exact Nat.min_le_left _ _
  · rw [List.forall_iff_forall_mem]
    intro e he
    have := mem_scoredEntries.mp (mem_of_mem_log_odds he)
    exact this.2.1

/-- C1: with `alpha > 0`, every token of the union vocabulary whose target
count reaches `min_count` yields exactly the spec-side smoothed score with
`V = max(|vocab|, 1)`, and every returned entry carries its token, that
score, and its counts in `one` and `rest`. -/
theorem ranker_computes_spec_scores (one rest : Counter) (alpha : ℝ)
    (topn minCount : Nat) (halpha : 0 < alpha) :
    ((vocabList one rest).Forall (fun w => minCount ≤ one.get w →
      (⟨w, specScore alpha one.total rest.total (specV one rest)
            (one.get w) (rest.get w), one.get w, rest.get w⟩ : REntry) ∈
        scoredEntries one rest alpha minCount)) ∧
    (log_odds_dirichlet one rest alpha topn minCount).Forall (fun e =>
      e.score = specScore alpha one.total rest.total (specV one rest)
        (one.get e.kw) (rest.get e.kw) ∧
      e.c1 = one.get e.kw ∧ e.c0 = rest.get e.kw) := by
  constructor
  · rw [List.forall_iff_forall_mem]
    intro w hw hmin
    rw [mem_scoredEntries]
    exact ⟨hw, hmin, rfl, rfl, by rw [specScore_eq, specV_eq]⟩
  · rw [List.forall_iff_forall_mem]
    intro e he
    have h := mem_scoredEntries.mp (mem_of_mem_log_odds he)
    exact ⟨by rw [specScore_eq, specV_eq]; exact h.2.2.2.2, h.2.2.1, h.2.2.2.1⟩

/-- Witness for C1 at a concrete input: `alpha = 1` is positive and the
theorem applies to the counters `{"aa": 3}` and `{}`. -/
theorem ranker_computes_spec_scores_witness :
    (0 : ℝ) < 1 ∧
    (((vocabList [("aa", 3)] []).Forall (fun w => 2 ≤ Counter.get [("aa", 3)] w →
      (⟨w, specScore 1 (Counter.total [("aa", 3)]) (Counter.total [])
            (specV [("aa", 3)] []) (Counter.get [("aa", 3)] w)
            (Counter.get [] w), Counter.get [("aa", 3)] w,
          Counter.get [] w⟩ : REntry) ∈
        scoredEntries [("aa", 3)] [] 1 2)) ∧
    (log_odds_dirichlet [("aa", 3)] [] 1 5 2).Forall (fun e =>
      e.score = specScore 1 (Counter.total [("aa", 3)]) (Counter.total [])
        (specV [("aa", 3)] []) (Counter.get [("aa", 3)] e.kw)
        (Counter.get [] e.kw) ∧
      e.c1 = Counter.get [("aa", 3)] e.kw ∧
      e.c0 = Counter.get [] e.kw)) :=
  ⟨by norm_num, ranker_computes_spec_scores [("aa", 3)] [] 1 5 2 (by norm_num)⟩

theorem one_le_bigV (one rest : Counter) : 1 ≤ bigV one rest := by
  unfold bigV
  split
  · exact le_refl 1
  · omega

/-- The count a counter stores for any token is at most its total. -/
theorem Counter.get_le_total (c : Counter) (w : String) : c.get w ≤ c.total := by
  induction c with
  | nil => simp [Counter.get, Counter.total]
  | cons p c ih =>
    have ht : Counter.total (p :: c) = p.2 + Counter.total c := by
      simp [Counter.total]
    by_cases h : p.1 == w
    · have hg : Counter.get (p :: c) w = p.2 := by
        simp [Counter.get, h]
      omega
    · have hg : Counter.get (p :: c) w = Counter.get c w := by
        simp [Counter.get, h]
      omega

/-- Monotonicity of the odds transform `x / (1 - x + e)` below `1 + e`. -/
theorem odds_frac_lt_odds_frac {p q e : ℝ} (he : 0 < e) (hp0 : 0 < p)
    (hq1 : q ≤ 1) (hpq : p < q) :
    p / (1 - p + e) < q / (1 - q + e) := by
  have hdp : 0 < 1 - p + e := by nlinarith
  have hdq : 0 < 1 - q + e := by nlinarith
  rw [div_lt_div_iff₀ hdp hdq]
  nlinarith [mul_pos (sub_pos.mpr hpq) (by linarith : (0:ℝ) < 1 + e)]

/-- Core positivity fact behind the amended C3: with `alpha > 0`,
`1 ≤ c1 ≤ n1`, `1 ≤ V` and `n1 ≤ n0`, a token with zero count in the rest
corpus receives a strictly positive smoothed log-odds score. -/
theorem smoothScore_pos_of_zero_rest (alpha : ℝ) (n1 n0 V c1 : Nat)
    (halpha : 0 < alpha) (hc : 1 ≤ c1) (hV : 1 ≤ V) (hcn : c1 ≤ n1)
    (hn : n1 ≤ n0) :
    0 < smoothScore alpha n1 n0 V c1 0 := by
  unfold smoothScore eps
  have hc' : (1:ℝ) ≤ (c1 : ℝ) := by exact_mod_cast hc
  have hV' : (1:ℝ) ≤ (V : ℝ) := by exact_mod_cast hV
  have hcn' : (c1 : ℝ) ≤ (n1 : ℝ) := by exact_mod_cast hcn
  have hn' : (n1 : ℝ) ≤ (n0 : ℝ) := by exact_mod_cast hn
  have hn1 : (0:ℝ) ≤ (n1 : ℝ) := Nat.cast_nonneg n1
  have hn0 : (0:ℝ) ≤ (n0 : ℝ) := Nat.cast_nonneg n0
  have he : (0:ℝ) < 1 / 10 ^ 12 := by norm_num
  have hd1 : (0:ℝ) < (n1 : ℝ) + alpha * V := by nlinarith
  have hd0 : (0:ℝ) < (n0 : ℝ) + alpha * V := by nlinarith
  have hp1 : ((c1 : ℝ) + alpha) / ((n1 : ℝ) + alpha * V) ≤ 1 := by
    rw [div_le_one hd1]
    nlinarith
  have hp0pos : 0 < (((0:ℕ) : ℝ) + alpha) / ((n0 : ℝ) + alpha * V) := by
    apply div_pos
    · simpa using halpha
    · exact hd0
  have hplt : (((0:ℕ) : ℝ) + alpha) / ((n0 : ℝ) + alpha * V) <
      ((c1 : ℝ) + alpha) / ((n1 : ℝ) + alpha * V) := by
    rw [Nat.cast_zero, zero_add, div_lt_div_iff₀ hd0 hd1]
    have h1 : alpha * (n1 : ℝ) ≤ alpha * (n0 : ℝ) :=
      mul_le_mul_of_nonneg_left hn' (le_of_lt halpha)
    have h2 : (0:ℝ) < (c1 : ℝ) * (alpha * V) :=
      mul_pos (lt_of_lt_of_le one_pos hc')
        (mul_pos halpha (lt_of_lt_of_le one_pos hV'))
    have h3 : (0:ℝ) ≤ (c1 : ℝ) * (n0 : ℝ) := by nlinarith
    nlinarith
  rw [sub_pos]
  apply Real.log_lt_log
  · apply div_pos hp0pos
    nlinarith [hplt, hp1]
  · exact odds_frac_lt_odds_frac he hp0pos hp1 hplt

/-- C3 counterexample: in the counters `{"aa": 10, "bb": 1}` against the
empty rest, with `alpha = 1` and `min_count = 1`, the token `"bb"` has
zero rest count and survives the gate, yet its score is strictly
negative: the rest proportion is smoothed up to `1/2` while the target
proportion is only about `2/13`. -/
theorem zero_rest_token_negative_score :
    ∃ e ∈ scoredEntries [("aa", 10), ("bb", 1)] ([] : Counter) 1 1,
      e.kw = "bb" ∧ e.c0 = 0 ∧ 1 ≤ e.c1 ∧ e.score < 0 := by
  refine ⟨⟨"bb", smoothScore 1 (Counter.total [("aa", 10), ("bb", 1)])
      (Counter.total ([] : Counter))
      (bigV [("aa", 10), ("bb", 1)] ([] : Counter))
      (Counter.get [("aa", 10), ("bb", 1)] "bb")
      (Counter.get ([] : Counter) "bb"),
      Counter.get [("aa", 10), ("bb", 1)] "bb",
      Counter.get ([] : Counter) "bb"⟩, ?_, ?_, ?_, ?_, ?_⟩
  · rw [mem_scoredEntries]
    refine ⟨by decide, by decide, rfl, rfl, rfl⟩
  · rfl
  · decide
  · decide
  · have h1 : Counter.total [("aa", 10), ("bb", 1)] = 11 := by decide
    have h2 : Counter.total ([] : Counter) = 0 := by decide
    have h3 : bigV [("aa", 10), ("bb", 1)] ([] : Counter) = 2 := by decide
    have h4 : Counter.get [("aa", 10), ("bb", 1)] "bb" = 1 := by decide
    have h5 : Counter.get ([] : Counter) "bb" = 0 := by decide
    rw [h1, h2, h3, h4, h5]
    unfold smoothScore eps
    rw [sub_neg]
    apply Real.log_lt_log
    · norm_num
    · norm_num

/-- Amended C3: if a token has zero count in `rest`, clears a positive
`min_count`, and the rest corpus is at least as large in total occurrences
as the target corpus, then its entry survives the gate and its computed
log-odds score is strictly positive. -/
theorem ranker_zero_rest_pos_score (one rest : Counter) (alpha : ℝ)
    (minCount : Nat) (w : String) (halpha : 0 < alpha)
    (hmin1 : 1 ≤ minCount) (hw : w ∈ vocabList one rest)
    (hgate : minCount ≤ one.get w) (hzero : rest.get w = 0)
    (htot : one.total ≤ rest.total) :
    (⟨w, smoothScore alpha one.total rest.total (bigV one rest)
        (one.get w) (rest.get w), one.get w, rest.get w⟩ : REntry) ∈
      scoredEntries one rest alpha minCount ∧
    0 < smoothScore alpha one.total rest.total (bigV one rest)
        (one.get w) (rest.get w) := by
  constructor
  · rw [mem_scoredEntries]
    exact ⟨hw, hgate, rfl, rfl, rfl⟩
  · rw [hzero]
    exact smoothScore_pos_of_zero_rest alpha one.total rest.total
      (bigV one rest) (one.get w) halpha (le_trans hmin1 hgate)
      (one_le_bigV one rest) (Counter.get_le_total one w) htot

/-- Witness for the amended C3 at `one = [("aa", 2)]`, `rest = [("cc", 3)]`,
`alpha = 1`, `min_count = 1`, token `"aa"`. -/
theorem ranker_zero_rest_pos_score_witness :
    ((0:ℝ) < 1 ∧ 1 ≤ 1 ∧ "aa" ∈ vocabList [("aa", 2)] [("cc", 3)] ∧
      1 ≤ Counter.get [("aa", 2)] "aa" ∧
      Counter.get [("cc", 3)] "aa" = 0 ∧
      Counter.total [("aa", 2)] ≤ Counter.total [("cc", 3)]) ∧
    ((⟨"aa", smoothScore 1 (Counter.total [("aa", 2)])
        (Counter.total [("cc", 3)]) (bigV [("aa", 2)] [("cc", 3)])
        (Counter.get [("aa", 2)] "aa") (Counter.get [("cc", 3)] "aa"),
        Counter.get [("aa", 2)] "aa", Counter.get [("cc", 3)] "aa"⟩ :
          REntry) ∈
      scoredEntries [("aa", 2)] [("cc", 3)] 1 1 ∧
    0 < smoothScore 1 (Counter.total [("aa", 2)]) (Counter.total [("cc", 3)])
        (bigV [("aa", 2)] [("cc", 3)]) (Counter.get [("aa", 2)] "aa")
        (Counter.get [("cc", 3)] "aa")) := by
  constructor
  · exact ⟨by norm_num, le_refl 1, by decide, by decide, by decide, by decide⟩
  · exact ranker_zero_rest_pos_score [("aa", 2)] [("cc", 3)] 1 1 "aa"
      (by norm_num) (le_refl 1) (by decide) (by decide) (by decide) (by decide)

/-- C2: for `target = {"한옥": 5, "정원": 3}`, `rest = {"한옥": 1, "아파트": 4}`,
`alpha = 0.01`, `min_count = 2` (and the default `topn = 20`), the ranked
output contains the entry for `"정원"` with counts `(3, 0)` and a strictly
positive score, and no entry for `"아파트"` occurs. -/
theorem concrete_scenario_ranking :
    (∃ s : ℝ, (⟨"정원", s, 3, 0⟩ : REntry) ∈
        log_odds_dirichlet [("한옥", 5), ("정원", 3)]
          [("한옥", 1), ("아파트", 4)] (1 / 100) 20 2 ∧ 0 < s) ∧
    (log_odds_dirichlet [("한옥", 5), ("정원", 3)]
        [("한옥", 1), ("아파트", 4)] (1 / 100) 20 2).Forall
      (fun e => e.kw ≠ "아파트") := by
  have hlen : (scoredEntries [("한옥", 5), ("정원", 3)]
      [("한옥", 1), ("아파트", 4)] (1 / 100) 2).length ≤ 3 := by
    unfold scoredEntries
    exact le_trans (List.length_filterMap_le _ _) (by decide)
  have htake : log_odds_dirichlet [("한옥", 5), ("정원", 3)]
      [("한옥", 1), ("아파트", 4)] (1 / 100) 20 2 =
      (scoredEntries [("한옥", 5), ("정원", 3)]
        [("한옥", 1), ("아파트", 4)] (1 / 100) 2).mergeSort scoreGE := by
    unfold log_odds_dirichlet
    apply List.take_of_length_le
    rw [List.length_mergeSort]
    omega
  constructor
  · refine ⟨smoothScore (1 / 100)
      (Counter.total [("한옥", 5), ("정원", 3)])
      (Counter.total [("한옥", 1), ("아파트", 4)])
      (bigV [("한옥", 5), ("정원", 3)] [("한옥", 1), ("아파트", 4)])
      (Counter.get [("한옥", 5), ("정원", 3)] "정원")
      (Counter.get [("한옥", 1), ("아파트", 4)] "정원"), ?_, ?_⟩
    · rw [htake, List.mem_mergeSort, mem_scoredEntries]
      exact ⟨by decide, by decide, by decide, by decide, rfl⟩
    · have h1 : Counter.total [("한옥", 5), ("정원", 3)] = 8 := by decide
      have h2 : Counter.total [("한옥", 1), ("아파트", 4)] = 5 := by decide
      have h3 : bigV [("한옥", 5), ("정원", 3)] [("한옥", 1), ("아파트", 4)] = 3 := by
        decide
      have h4 : Counter.get [("한옥", 5), ("정원", 3)] "정원" = 3 := by decide
      have h5 : Counter.get [("한옥", 1), ("아파트", 4)] "정원" = 0 := by decide
      rw [h1, h2, h3, h4, h5]
      unfold smoothScore eps
      rw [sub_pos]
      apply Real.log_lt_log
      · norm_num
      · norm_num
  · rw [htake, List.forall_iff_forall_mem]
    intro e he
    have hmem := mem_scoredEntries.mp (List.mem_mergeSort.mp he)
    intro hkw
    rw [hkw] at hmem
    have h2 := hmem.2.1
    have h0 : Counter.get [("한옥", 5), ("정원", 3)] "아파트" = 0 := by decide
    omega

theorem cntGE_trans (a b c : String × Nat) :
    cntGE a b → cntGE b c → cntGE a c := by
  unfold cntGE
  intro h1 h2
  exact decide_eq_true
    (le_trans (of_decide_eq_true h2) (of_decide_eq_true h1))

theorem cntGE_total (a b : String × Nat) : cntGE a b || cntGE b a := by
  unfold cntGE
  rcases le_total a.2 b.2 with h | h
  · simp [h]
  · simp [h]

/-- C5: the payload of the `"기타"` bucket is its own tokens by raw
frequency: it equals the `most_common` rendering, never depends on any
other district's counter, carries score `0.0` on every entry, is ordered
by count descending, and is truncated to `topn`. -/
theorem etc_bucket_frequency_policy (counters counters2 : String → Counter)
    (etc : Counter) (topn minCount minCount2 : Nat) :
    build_district_keywords counters etc topn minCount "기타" =
      (most_common etc topn).map (fun p => ⟨p.1, p.2, 0⟩) ∧
    build_district_keywords counters etc topn minCount "기타" =
      build_district_keywords counters2 etc topn minCount2 "기타" ∧
    (build_district_keywords counters etc topn minCount "기타").Forall
      (fun e => e.score = 0 ∧ (e.kw, e.cnt) ∈ etc) ∧
    (build_district_keywords counters etc topn minCount "기타").Pairwise
      (fun a b => b.cnt ≤ a.cnt) ∧
    (build_district_keywords counters etc topn minCount "기타").length ≤ topn := by
  have hbase : build_district_keywords counters etc topn minCount "기타" =
      (most_common etc topn).map (fun p => ⟨p.1, p.2, 0⟩) := by
    unfold build_district_keywords
    rw [if_pos rfl]
  refine ⟨hbase, by rw [hbase]; unfold build_district_keywords; rw [if_pos rfl],
    ?_, ?_, ?_⟩
  · rw [hbase, List.forall_iff_forall_mem]
    intro e he
    rw [List.mem_map] at he
    obtain ⟨p, hp, hpe⟩ := he
    have hp2 : p ∈ etc :=
      List.mem_mergeSort.mp (List.mem_of_mem_take hp)
    subst hpe
    exact ⟨rfl, hp2⟩
  · rw [hbase]
    have hs := List.sorted_mergeSort cntGE_trans cntGE_total etc
    have hp : (etc.mergeSort cntGE).Pairwise (fun a b => b.2 ≤ a.2) :=
      hs.imp (fun h => of_decide_eq_true h)
    have ht : (most_common etc topn).Pairwise (fun a b => b.2 ≤ a.2) :=
      hp.sublist (List.take_sublist _ _)
    rw [List.pairwise_map]
    exact ht
  · rw [hbase, List.length_map]
    unfold most_common
    rw [List.length_take]
    exact Nat.min_le_left _ _

/-- The `for w in vocab` loop threads the two counters through unchanged
and accumulates exactly the scored survivors. -/
theorem rankStep_foldl (one rest : Counter) (alpha : ℝ)
    (minCount n1 n0 V : Nat) :
    ∀ (ws : List String) (out : List REntry),
      ws.foldl (rankStep alpha minCount n1 n0 V) (out, one, rest) =
        (out ++ ws.filterMap (fun w =>
          if one.get w < minCount then none
          else some ⟨w, smoothScore alpha n1 n0 V (one.get w) (rest.get w),
            one.get w, rest.get w⟩), one, rest) := by
  intro ws
  induction ws with
  | nil =>
    intro out
    simp
  | cons w ws ih =>
    intro out
    rw [List.foldl_cons, List.filterMap_cons]
    by_cases h : one.get w < minCount
    · have hstep : rankStep alpha minCount n1 n0 V (out, one, rest) w =
          (out, one, rest) := by
        simp [rankStep, Counter.getSt, h]
      rw [hstep, if_pos h, ih]
    · have hstep : rankStep alpha minCount n1 n0 V (out, one, rest) w =
          (out ++ [⟨w, smoothScore alpha n1 n0 V (one.get w) (rest.get w),
            one.get w, rest.get w⟩], one, rest) := by
        simp [rankStep, Counter.getSt, h]
      rw [hstep, if_neg h, ih]
      simp

/-- C10: the ranker does not mutate its inputs: after the state-passing
rendition of `log_odds_dirichlet` runs, both counters are unchanged, and
the ranked list it produces is the one of the pure rendition. -/
theorem ranker_preserves_inputs (one rest : Counter) (alpha : ℝ)
    (topn minCount : Nat) :
    (log_odds_dirichlet_st one rest alpha topn minCount).2.1 = one ∧
    (log_odds_dirichlet_st one rest alpha topn minCount).2.2 = rest ∧
    (log_odds_dirichlet_st one rest alpha topn minCount).1 =
      log_odds_dirichlet one rest alpha topn minCount := by
  have hfold := rankStep_foldl one rest alpha minCount one.total rest.total
    (if ((one.keys ++ rest.keys).eraseDups).length = 0 then 1
      else ((one.keys ++ rest.keys).eraseDups).length)
    ((one.keys ++ rest.keys).eraseDups) []
  unfold log_odds_dirichlet_st
  dsimp only [Counter.keysSt, Counter.totalSt]
  rw [hfold]
  exact ⟨rfl, rfl, rfl⟩

theorem takeWhile_isDigit_eq_nil (l : List Char)
    (h : ∀ c ∈ l, c.isDigit = false) : l.takeWhile Char.isDigit = [] := by
  cases l with
  | nil => rfl
  | cons c rest =>
    rw [List.takeWhile_cons, h c (List.mem_cons_self c rest)]
    rfl

theorem ordTM_none (prev : Option Char) (l : List Char)
    (h : ∀ c ∈ l, c.isDigit = false) : ordTM prev l = none := by
  cases l with
  | nil => rfl
  | cons c rest =>
    have hd : (rest.dropWhile isSpaceCh).takeWhile Char.isDigit = [] := by
      apply takeWhile_isDigit_eq_nil
      intro a ha
      exact h a (List.mem_cons_of_mem _
        ((List.dropWhile_sublist _).subset ha))
    by_cases hc : c = '제'
    · simp [ordTM, hc, hd]
    · simp [ordTM, hc]

theorem yearTM_none (prev : Option Char) (l : List Char)
    (h : ∀ c ∈ l, c.isDigit = false) : yearTM prev l = none := by
  have hd : l.takeWhile Char.isDigit = [] := takeWhile_isDigit_eq_nil l h
  simp [yearTM, hd]

theorem numTM_none (prev : Option Char) (l : List Char)
    (h : ∀ c ∈ l, c.isDigit = false) : numTM prev l = none := by
  cases l with
  | nil => rfl
  | cons c rest =>
    have hc : c.isDigit = false := h c (List.mem_cons_self c rest)
    simp [numTM, hc]

theorem reSubF_eq_self
    (tm : Option Char → List Char → Option (List Char × List Char))
    (hnone : ∀ prev l, (∀ c ∈ l, c.isDigit = false) → tm prev l = none) :
    ∀ (fuel : Nat) (prev : Option Char) (l : List Char),
      (∀ c ∈ l, c.isDigit = false) → reSubF tm fuel prev l = l := by
  intro fuel
  induction fuel with
  | zero =>
    intro prev l h
    rfl
  | succ n ih =>
    intro prev l h
    cases l with
    | nil => rfl
    | cons c rest =>
      have htail : ∀ a ∈ rest, a.isDigit = false :=
        fun a ha => h a (List.mem_cons_of_mem _ ha)
      simp only [reSubF, hnone prev (c :: rest) h]
      rw [ih (some c) rest htail]

theorem reSub_eq_self
    (tm : Option Char → List Char → Option (List Char × List Char))
    (hnone : ∀ prev l, (∀ c ∈ l, c.isDigit = false) → tm prev l = none)
    (l : List Char) (h : ∀ c ∈ l, c.isDigit = false) : reSub tm l = l :=
  reSubF_eq_self tm hnone l.length none l h

theorem replace518_eq_self (l : List Char)
    (h : ∀ c ∈ l, c.isDigit = false) : replace518 l = l := by
  induction l with
  | nil => rfl
  | cons c rest ih =>
    have hc : c.isDigit = false := h c (List.mem_cons_self c rest)
    have htail : ∀ a ∈ rest, a.isDigit = false :=
      fun a ha => h a (List.mem_cons_of_mem _ ha)
    have h5 : c ≠ '5' := by
      intro hh
      rw [hh] at hc
      simp [Char.isDigit] at hc
    rw [replace518.eq_def]
    split
    · rename_i rest2 heq
      obtain ⟨h1, h2⟩ := List.cons.inj heq
      exact absurd h1 h5
    · rename_i c' rest' heq
      obtain ⟨h1, h2⟩ := List.cons.inj heq
      subst h1
      subst h2
      rw [ih htail]
    · rename_i heq
      exact absurd heq (by simp)

theorem punctSub_mem {l : List Char} {c : Char} (h : c ∈ punctSub l) :
    c = ' ' ∨ (c ∈ l ∧ (isWordCh c || isSpaceCh c || c == '·') = true) := by
  unfold punctSub at h
  rw [List.mem_map] at h
  obtain ⟨a, ha, hac⟩ := h
  by_cases hcond : (isWordCh a || isSpaceCh a || a == '·') = true
  · rw [if_pos hcond] at hac
    subst hac
    exact Or.inr ⟨ha, hcond⟩
  · rw [if_neg hcond] at hac
    exact Or.inl hac.symm

theorem punctSub_digit_free {l : List Char}
    (h : ∀ c ∈ l, c.isDigit = false) :
    ∀ c ∈ punctSub l, c.isDigit = false := by
  intro c hc
  rcases punctSub_mem hc with h1 | ⟨h1, _⟩
  · subst h1
    rfl
  · exact h c h1

theorem punctSub_eq_self {l : List Char}
    (h : ∀ c ∈ l, (isWordCh c || isSpaceCh c || c == '·') = true) :
    punctSub l = l := by
  induction l with
  | nil => rfl
  | cons c rest ih =>
    unfold punctSub
    rw [List.map_cons, if_pos (h c (List.mem_cons_self c rest))]
    have := ih (fun a ha => h a (List.mem_cons_of_mem _ ha))
    unfold punctSub at this
    rw [this]

theorem collapseAux_mem :
    ∀ (flag : Bool) (l : List Char) (c : Char), c ∈ collapseAux flag l →
      c = ' ' ∨ (c ∈ l ∧ isSpaceCh c = false) := by
  intro flag l
  induction l generalizing flag with
  | nil =>
    intro c hc
    simp [collapseAux] at hc
  | cons a rest ih =>
    intro c hc
    by_cases ha : isSpaceCh a = true
    · rcases flag with _ | _
      · rw [show collapseAux false (a :: rest) =
            ' ' :: collapseAux true rest by simp [collapseAux, ha]] at hc
        rcases List.mem_cons.mp hc with h1 | h1
        · exact Or.inl h1
        · rcases ih true c h1 with h2 | ⟨h2, h3⟩
          · exact Or.inl h2
          · exact Or.inr ⟨List.mem_cons_of_mem _ h2, h3⟩
      · rw [show collapseAux true (a :: rest) =
            collapseAux true rest by simp [collapseAux, ha]] at hc
        rcases ih true c hc with h2 | ⟨h2, h3⟩
        · exact Or.inl h2
        · exact Or.inr ⟨List.mem_cons_of_mem _ h2, h3⟩
    · rw [show collapseAux flag (a :: rest) =
          a :: collapseAux false rest by simp [collapseAux, ha]] at hc
      rcases List.mem_cons.mp hc with h1 | h1
      · subst h1
        exact Or.inr ⟨List.mem_cons_self _ _, Bool.not_eq_true _ ▸ ha⟩
      · rcases ih false c h1 with h2 | ⟨h2, h3⟩
        · exact Or.inl h2
        · exact Or.inr ⟨List.mem_cons_of_mem _ h2, h3⟩

theorem collapseAux_true_head :
    ∀ (l : List Char) (c : Char), (collapseAux true l).head? = some c →
      isSpaceCh c = false := by
  intro l
  induction l with
  | nil =>
    intro c hc
    simp [collapseAux] at hc
  | cons a rest ih =>
    intro c hc
    by_cases ha : isSpaceCh a = true
    · rw [show collapseAux true (a :: rest) = collapseAux true rest by
        simp [collapseAux, ha]] at hc
      exact ih c hc
    · rw [show collapseAux true (a :: rest) = a :: collapseAux false rest by
        simp [collapseAux, ha]] at hc
      rw [List.head?_cons, Option.some.injEq] at hc
      subst hc
      exact Bool.not_eq_true _ ▸ ha

theorem collapseAux_chain :
    ∀ (flag : Bool) (l : List Char),
      (collapseAux flag l).Chain' noTwoSpaces := by
  intro flag l
  induction l generalizing flag with
  | nil => simp [collapseAux]
  | cons a rest ih =>
    by_cases ha : isSpaceCh a = true
    · rcases flag with _ | _
      · rw [show collapseAux false (a :: rest) =
            ' ' :: collapseAux true rest by simp [collapseAux, ha]]
        rw [List.chain'_cons']
        refine ⟨?_, ih true⟩
        intro y hy
        have := collapseAux_true_head rest y hy
        unfold noTwoSpaces
        rw [this]
        simp
      · rw [show collapseAux true (a :: rest) =
            collapseAux true rest by simp [collapseAux, ha]]
        exact ih true
    · rw [show collapseAux flag (a :: rest) =
          a :: collapseAux false rest by simp [collapseAux, ha]]
      rw [List.chain'_cons']
      refine ⟨?_, ih false⟩
      intro y hy
      unfold noTwoSpaces
      intro hcontra
      exact absurd hcontra.1 ha

theorem collapseAux_eq_self :
    ∀ (l : List Char) (flag : Bool),
      (∀ c ∈ l, isSpaceCh c = true → c = ' ') →
      l.Chain' noTwoSpaces →
      (flag = true → ∀ c, l.head? = some c → isSpaceCh c = false) →
      collapseAux flag l = l := by
  intro l
  induction l with
  | nil =>
    intro flag h1 h2 h3
    rfl
  | cons a rest ih =>
    intro flag h1 h2 h3
    have h1t : ∀ c ∈ rest, isSpaceCh c = true → c = ' ' :=
      fun c hc => h1 c (List.mem_cons_of_mem _ hc)
    have h2t : rest.Chain' noTwoSpaces := (List.chain'_cons'.mp h2).2
    by_cases ha : isSpaceCh a = true
    · rcases flag with _ | _
      · rw [show collapseAux false (a :: rest) =
            ' ' :: collapseAux true rest by simp [collapseAux, ha]]
        rw [h1 a (List.mem_cons_self a rest) ha]
        congr 1
        apply ih true h1t h2t
        intro _ c hc
        have hyr := (List.chain'_cons'.mp h2).1 c hc
        unfold noTwoSpaces at hyr
        by_cases hcs : isSpaceCh c = true
        · exact absurd ⟨ha, hcs⟩ hyr
        · exact Bool.not_eq_true _ ▸ hcs
      · exact absurd ha (by rw [h3 rfl a rfl]; simp)
    · rw [show collapseAux flag (a :: rest) =
          a :: collapseAux false rest by simp [collapseAux, ha]]
      congr 1
      exact ih false h1t h2t (fun h => absurd h (by simp))

theorem dropWhile_head_not {p : Char → Bool} :
    ∀ (l : List Char) (c : Char), (l.dropWhile p).head? = some c →
      p c = false := by
  intro l
  induction l with
  | nil =>
    intro c hc
    simp [List.dropWhile] at hc
  | cons a rest ih =>
    intro c hc
    by_cases ha : p a = true
    · rw [List.dropWhile_cons_of_pos ha] at hc
      exact ih c hc
    · rw [List.dropWhile_cons_of_neg ha, List.head?_cons,
        Option.some.injEq] at hc
      subst hc
      exact Bool.not_eq_true _ ▸ ha

theorem dropWhile_eq_self_of_head {p : Char → Bool} {l : List Char}
    (h : ∀ c, l.head? = some c → p c = false) : l.dropWhile p = l := by
  cases l with
  | nil => rfl
  | cons a rest =>
    rw [List.dropWhile_cons_of_neg]
    rw [h a rfl]
    simp

theorem stripWs_reverse (m : List Char) :
    (stripWs m).reverse = (m.dropWhile isSpaceCh).reverse.dropWhile isSpaceCh := by
  unfold stripWs stripEnd
  rw [List.reverse_reverse]

theorem stripWs_head (m : List Char) (c : Char)
    (h : (stripWs m).head? = some c) : isSpaceCh c = false := by
  obtain ⟨s, hs⟩ : ∃ s, stripWs m = c :: s := by
    cases hm : stripWs m with
    | nil => rw [hm] at h; simp at h
    | cons a s =>
      rw [hm, List.head?_cons, Option.some.injEq] at h
      exact ⟨s, by rw [h]⟩
  have hdecomp : (m.dropWhile isSpaceCh).reverse.takeWhile isSpaceCh ++
      (m.dropWhile isSpaceCh).reverse.dropWhile isSpaceCh =
      (m.dropWhile isSpaceCh).reverse :=
    List.takeWhile_append_dropWhile isSpaceCh _
  have hv : m.dropWhile isSpaceCh = stripWs m ++
      ((m.dropWhile isSpaceCh).reverse.takeWhile isSpaceCh).reverse := by
    unfold stripWs stripEnd
    calc m.dropWhile isSpaceCh
        = (m.dropWhile isSpaceCh).reverse.reverse :=
          (List.reverse_reverse _).symm
      _ = ((m.dropWhile isSpaceCh).reverse.takeWhile isSpaceCh ++
            (m.dropWhile isSpaceCh).reverse.dropWhile isSpaceCh).reverse := by
          rw [hdecomp]
      _ = ((m.dropWhile isSpaceCh).reverse.dropWhile isSpaceCh).reverse ++
            ((m.dropWhile isSpaceCh).reverse.takeWhile isSpaceCh).reverse := by
          rw [List.reverse_append]
  have hvhead : (m.dropWhile isSpaceCh).head? = some c := by
    rw [hv, hs]
    rfl
  exact dropWhile_head_not m c hvhead

theorem stripWs_rev_head (m : List Char) (c : Char)
    (h : (stripWs m).reverse.head? = some c) : isSpaceCh c = false := by
  rw [stripWs_reverse] at h
  exact dropWhile_head_not _ c h

theorem stripWs_eq_self (l : List Char)
    (h1 : ∀ c, l.head? = some c → isSpaceCh c = false)
    (h2 : ∀ c, l.reverse.head? = some c → isSpaceCh c = false) :
    stripWs l = l := by
  unfold stripWs stripEnd
  rw [dropWhile_eq_self_of_head h1, dropWhile_eq_self_of_head h2]
  exact List.reverse_reverse l

theorem stripWs_idem (m : List Char) : stripWs (stripWs m) = stripWs m :=
  stripWs_eq_self _ (stripWs_head m) (stripWs_rev_head m)

theorem stripWs_mem {m : List Char} {c : Char} (h : c ∈ stripWs m) :
    c ∈ m := by
  unfold stripWs stripEnd at h
  rw [List.mem_reverse] at h
  have h2 := (List.dropWhile_sublist isSpaceCh).subset h
  rw [List.mem_reverse] at h2
  exact (List.dropWhile_sublist isSpaceCh).subset h2

theorem stripWs_chain {m : List Char} (h : m.Chain' noTwoSpaces) :
    (stripWs m).Chain' noTwoSpaces := by
  have hdec : m.takeWhile isSpaceCh ++ m.dropWhile isSpaceCh = m :=
    List.takeWhile_append_dropWhile isSpaceCh _
  have hv : (m.dropWhile isSpaceCh).Chain' noTwoSpaces := by
    rw [← hdec] at h
    exact h.right_of_append
  have hrev : ((m.dropWhile isSpaceCh).reverse).Chain' noTwoSpaces := by
    rw [List.chain'_reverse]
    exact hv.imp (fun a b hab hc => hab ⟨hc.2, hc.1⟩)
  have hdec2 : (m.dropWhile isSpaceCh).reverse.takeWhile isSpaceCh ++
      (m.dropWhile isSpaceCh).reverse.dropWhile isSpaceCh =
      (m.dropWhile isSpaceCh).reverse :=
    List.takeWhile_append_dropWhile isSpaceCh _
  have hr2 : ((m.dropWhile isSpaceCh).reverse.dropWhile
      isSpaceCh).Chain' noTwoSpaces := by
    rw [← hdec2] at hrev
    exact hrev.right_of_append
  unfold stripWs stripEnd
  rw [List.chain'_reverse]
  exact hr2.imp (fun a b hab hc => hab ⟨hc.2, hc.1⟩)

/-- On digit-free input, the three numeric substitutions and the pinned
replacement are the identity, so the normalizer reduces to the
punctuation, whitespace and strip stages. -/
theorem clean_eq_of_digit_free (s : String)
    (h : ∀ c ∈ s.data, c.isDigit = false) :
    clean_text_for_kw s =
      String.mk (stripWs (collapseAux false (punctSub s.data))) := by
  unfold clean_text_for_kw
  rw [replace518_eq_self s.data h,
      reSub_eq_self ordTM ordTM_none s.data h,
      reSub_eq_self yearTM yearTM_none s.data h,
      reSub_eq_self numTM numTM_none s.data h]

/-- The output of the punct-collapse-strip pipeline is a fixed point of
each of its stages, and stays digit free. -/
theorem normalized_fixed (z : List Char)
    (hgood : ∀ c ∈ z, (isWordCh c || isSpaceCh c || c == '·') = true)
    (hdf : ∀ c ∈ z, c.isDigit = false) :
    (∀ c ∈ stripWs (collapseAux false z), c.isDigit = false) ∧
    punctSub (stripWs (collapseAux false z)) =
      stripWs (collapseAux false z) ∧
    collapseAux false (stripWs (collapseAux false z)) =
      stripWs (collapseAux false z) ∧
    stripWs (stripWs (collapseAux false z)) =
      stripWs (collapseAux false z) := by
  have hymem : ∀ c ∈ stripWs (collapseAux false z),
      c = ' ' ∨ (c ∈ z ∧ isSpaceCh c = false) :=
    fun c hc => collapseAux_mem false z c (stripWs_mem hc)
  refine ⟨?_, ?_, ?_, stripWs_idem _⟩
  · intro c hc
    rcases hymem c hc with h1 | ⟨h1, _⟩
    · subst h1
      rfl
    · exact hdf c h1
  · apply punctSub_eq_self
    intro c hc
    rcases hymem c hc with h1 | ⟨h1, _⟩
    · subst h1
      decide
    · exact hgood c h1
  · apply collapseAux_eq_self
    · intro c hc hcs
      rcases hymem c hc with h1 | ⟨_, h2⟩
      · exact h1
      · rw [h2] at hcs
        exact absurd hcs (by simp)
    · exact stripWs_chain (collapseAux_chain false z)
    · intro hf
      exact absurd hf (by simp)

/-- C6 counterexample: the normalizer is not idempotent.  On `"제!5호"`
one pass yields `"제 5호"` (the `!` blocks both the ordinal pattern and
the word boundary of the numeric pattern, and is then turned into a
space), while a second pass matches the ordinal pattern `제\s*\d+\s*호`
and erases everything. -/
theorem normalizer_not_idempotent :
    clean_text_for_kw "제!5호" = "제 5호" ∧
    clean_text_for_kw (clean_text_for_kw "제!5호") = "" ∧
    clean_text_for_kw (clean_text_for_kw "제!5호") ≠
      clean_text_for_kw "제!5호" := by
  refine ⟨by decide, by decide, by decide⟩

/-- Amended C6: on digit-free input over the `modeledChar` alphabet —
the alphabet on which the embedded character classes agree with Python's
Unicode regex classes — the normalizer is idempotent.  The counterexample
forces the digit-freeness condition (every non-idempotence arises from a
digit pattern unlocked by removed punctuation), and the alphabet
condition scopes the statement to where the embedding is faithful:
outside it, a Unicode decimal digit such as `１` is digit-free in ASCII
terms yet still feeds the ordinal pattern in the source. -/
theorem normalizer_idempotent_of_digit_free (s : String)
    (halph : ∀ c ∈ s.data, modeledChar c = true)
    (h : ∀ c ∈ s.data, c.isDigit = false) :
    clean_text_for_kw (clean_text_for_kw s) = clean_text_for_kw s := by
  have hzgood : ∀ c ∈ punctSub s.data,
      (isWordCh c || isSpaceCh c || c == '·') = true := by
    intro c hc
    rcases punctSub_mem hc with h1 | ⟨_, h2⟩
    · subst h1
      decide
    · exact h2
  have hzdf : ∀ c ∈ punctSub s.data, c.isDigit = false :=
    punctSub_digit_free h
  obtain ⟨hydf, hyp, hyc, hys⟩ := normalized_fixed (punctSub s.data) hzgood hzdf
  rw [clean_eq_of_digit_free s h]
  have h2 := clean_eq_of_digit_free
    (String.mk (stripWs (collapseAux false (punctSub s.data)))) hydf
  rw [h2]
  show String.mk (stripWs (collapseAux false (punctSub
    (stripWs (collapseAux false (punctSub s.data)))))) = _
  rw [hyp, hyc, hys]

/-- Witness for the amended C6 at the digit-free string
`"광주 한옥마을!"`, whose characters all lie in the modeled alphabet. -/
theorem normalizer_idempotent_witness :
    (∀ c ∈ ("광주 한옥마을!" : String).data, modeledChar c = true) ∧
    (∀ c ∈ ("광주 한옥마을!" : String).data, c.isDigit = false) ∧
    clean_text_for_kw (clean_text_for_kw "광주 한옥마을!") =
      clean_text_for_kw "광주 한옥마을!" :=
  ⟨by decide, by decide,
   normalizer_idempotent_of_digit_free "광주 한옥마을!" (by decide) (by decide)⟩

theorem filterMap_sublist_map {α β : Type} (f : α → Option β) (g : α → β)
    (h : ∀ a x, f a = some x → x = g a) :
    ∀ l : List α, (l.filterMap f).Sublist (l.map g) := by
  intro l
  induction l with
  | nil => simp
  | cons a l ih =>
    rw [List.filterMap_cons, List.map_cons]
    cases hf : f a with
    | none => exact ih.cons _
    | some x =>
      rw [h a x hf]
      exact ih.cons₂ _

/-- C7: every token the tokenizer emits has length at least 2 code
points, is not a stopword, and is the surface form of a first-analysis
segment tagged `NNG` or `NNP`; the output is a sublist of the analysis
surface forms in order, so input order is preserved and duplicates are
retained. -/
theorem tokenizer_invariants (analyze : String → List (List Morph × ℚ))
    (text : String) :
    (nouns_only analyze text).Forall (fun tok =>
      2 ≤ tok.length ∧ ¬ tok ∈ STOPWORDS ∧
      ∃ m ∈ firstAnalysis analyze text,
        m.form = tok ∧ (m.pos = "NNG" ∨ m.pos = "NNP")) ∧
    (nouns_only analyze text).Sublist
      ((firstAnalysis analyze text).map (fun m => m.form)) := by
  unfold nouns_only firstAnalysis
  by_cases htext : text = ""
  · rw [if_pos htext]
    exact ⟨trivial, List.nil_sublist _⟩
  · rw [if_neg htext]
    cases analyze text with
    | nil => exact ⟨trivial, List.nil_sublist _⟩
    | cons p rest =>
      obtain ⟨toks, q⟩ := p
      constructor
      · rw [List.forall_iff_forall_mem]
        intro tok htok
        rw [List.mem_filterMap] at htok
        obtain ⟨m, hm, hsome⟩ := htok
        by_cases hpos : m.pos = "NNG" ∨ m.pos = "NNP"
        · rw [if_pos hpos] at hsome
          by_cases hkeep : 2 ≤ m.form.length ∧ ¬ m.form ∈ STOPWORDS
          · rw [if_pos hkeep, Option.some.injEq] at hsome
            subst hsome
            exact ⟨hkeep.1, hkeep.2, m, hm, rfl, hpos⟩
          · rw [if_neg hkeep] at hsome
            cases hsome
        · rw [if_neg hpos] at hsome
          cases hsome
      · apply filterMap_sublist_map
        intro m x hfm
        by_cases hpos : m.pos = "NNG" ∨ m.pos = "NNP"
        · rw [if_pos hpos] at hfm
          by_cases hkeep : 2 ≤ m.form.length ∧ ¬ m.form ∈ STOPWORDS
          · rw [if_pos hkeep, Option.some.injEq] at hfm
            exact hfm.symm
          · rw [if_neg hkeep] at hfm
            cases hfm
        · rw [if_neg hpos] at hfm
          cases hfm

/-- C9: the `architect_buildings.py` tokenizer returns `[]` on empty
input and on an empty analysis; the `main2.py` duplicate also returns
`[]` on empty input, but indexes the empty analysis and fails (modeled
as `none`) on any nonempty text whose analysis is empty. -/
theorem tokenizer_empty_analysis_behavior :
    (∀ analyze : String → List (List Morph × ℚ),
      nouns_only analyze "" = []) ∧
    (∀ analyze : String → List (List Morph × ℚ),
      nouns_only_main2 analyze "" = some []) ∧
    nouns_only (fun _ => []) "가" = [] ∧
    nouns_only_main2 (fun _ => []) "가" = none := by
  refine ⟨fun a => rfl, fun a => rfl, by decide, by decide⟩

theorem districtAt_mem {l : List Char} {d : String}
    (h : districtAt l = some d) : d ∈ DISTRICTS := by
  unfold districtAt at h
  exact List.mem_of_find?_eq_some h

theorem search_district_spec :
    ∀ (l : List Char) (d : String), search_district l = some d →
      d ∈ DISTRICTS ∧
      ∃ i, districtAt (l.drop i) = some d ∧
        ∀ j < i, districtAt (l.drop j) = none := by
  intro l
  induction l with
  | nil =>
    intro d h
    cases h
  | cons c rest ih =>
    intro d h
    unfold search_district at h
    cases hat : districtAt (c :: rest) with
    | some d' =>
      rw [hat] at h
      rw [Option.some.injEq] at h
      subst h
      refine ⟨districtAt_mem hat, 0, hat, ?_⟩
      intro j hj
      omega
    | none =>
      rw [hat] at h
      obtain ⟨hmem, i, hi, hbefore⟩ := ih d h
      refine ⟨hmem, i + 1, by simpa using hi, ?_⟩
      intro j hj
      cases j with
      | zero => exact hat
      | succ j' =>
        have := hbefore j' (by omega)
        simpa using this

/-- Amended C8: the `architect_buildings.py` and `main.py` district
extraction always returns a member of the fixed district set or the
`"기타"` sentinel — never an absent value — and the match it returns is
the leftmost occurrence of a district name in the stringified address.
(The `main2.py` duplicate instead returns `None`, see the
counterexample.) -/
theorem district_always_classified (address : Option String) :
    (extract_district address = "기타" ∨
      extract_district address ∈ DISTRICTS) ∧
    (∀ d, search_district (address.getD "None").data = some d →
      extract_district address = d ∧ d ∈ DISTRICTS ∧
      ∃ i, districtAt ((address.getD "None").data.drop i) = some d ∧
        ∀ j < i, districtAt ((address.getD "None").data.drop j) = none) := by
  constructor
  · unfold extract_district
    cases hs : search_district (address.getD "None").data with
    | none => exact Or.inl rfl
    | some d => exact Or.inr (search_district_spec _ d hs).1
  · intro d hd
    obtain ⟨hmem, i, hi, hbefore⟩ := search_district_spec _ d hd
    refine ⟨?_, hmem, i, hi, hbefore⟩
    unfold extract_district
    rw [hd]

/-- Witness for the amended C8: in `"북구로를 지나 서구 방면"` the first
district name occurring is `"북구"`, and the extraction returns it. -/
theorem district_always_classified_witness :
    (extract_district (some "북구로를 지나 서구 방면") = "기타" ∨
      extract_district (some "북구로를 지나 서구 방면") ∈ DISTRICTS) ∧
    extract_district (some "북구로를 지나 서구 방면") = "북구" :=
  ⟨(district_always_classified (some "북구로를 지나 서구 방면")).1,
   ((district_always_classified (some "북구로를 지나 서구 방면")).2
     "북구" (by decide)).1⟩

/-- C8 counterexample: the `main2.py` district extraction returns `None`
(an absent value, neither a district nor `"기타"`) on an address that
names no Gwangju district, and on an absent address. -/
theorem district_extraction_none_counterexample :
    extract_district_main2 (some "서울특별시 종로구") = none ∧
    extract_district_main2 none = none ∧
    ∀ d ∈ "기타" :: DISTRICTS,
      extract_district_main2 (some "서울특별시 종로구") ≠ some d := by
  refine ⟨by decide, rfl, by decide⟩

end GwangjuMap
